import Mathlib

/-!
Shallow embedding of `magenta/music/events_lib.py`: the `SimpleEventSequence`
container and the `RunLengthEncodedEventSequence` codec, together with proofs
of the spec's claims about them.

Events are modelled by an arbitrary type `α` with decidable equality (the
Python code only compares events with `!=`).  Step offsets are modelled by
`Int` (Python integers; `start_step` can go negative when growing from the
left), run lengths and step counts by `Nat`.
-/

set_option linter.unusedSectionVars false

namespace Magenta

variable {α : Type} [DecidableEq α]

/-- `SimpleEventSequence`: pad event, dense event list, and the stored step /
resolution bookkeeping fields (`_events`, `_start_step`, `_end_step`,
`_steps_per_bar`, `_steps_per_quarter` in the source). -/
structure SimpleEventSequence (α : Type) where
  pad_event : α
  events : List α
  start_step : Int
  end_step : Int
  steps_per_bar : Int
  steps_per_quarter : Int
deriving DecidableEq

/-- Constructor path `_from_event_list`: `_end_step = start_step + len(events)`. -/
def fromEventList (pad : α) (events : List α) (start_step : Int)
    (steps_per_bar steps_per_quarter : Int) : SimpleEventSequence α :=
  { pad_event := pad
    events := events
    start_step := start_step
    end_step := start_step + events.length
    steps_per_bar := steps_per_bar
    steps_per_quarter := steps_per_quarter }

/-- Constructor path with `events=None`: empty list, `_end_step = start_step`. -/
def emptySeq (pad : α) (start_step steps_per_bar steps_per_quarter : Int) :
    SimpleEventSequence α :=
  { pad_event := pad
    events := []
    start_step := start_step
    end_step := start_step
    steps_per_bar := steps_per_bar
    steps_per_quarter := steps_per_quarter }

/-- `SimpleEventSequence.append`: push the event and increment `_end_step`. -/
def SimpleEventSequence.append (s : SimpleEventSequence α) (event : α) :
    SimpleEventSequence α :=
  { s with events := s.events ++ [event], end_step := s.end_step + 1 }

/-- Sequentially append a list of events (used to model the `decode` loop). -/
def SimpleEventSequence.appendAll (s : SimpleEventSequence α) (xs : List α) :
    SimpleEventSequence α :=
  xs.foldl SimpleEventSequence.append s

/-- The per-event `fill` closure of `increase_resolution`: with `fill_event`
unset each event is repeated `k` times, otherwise the event is followed by
`k - 1` copies of `fill_event`.  Python list repetition `[x] * k` yields `[]`
for `k <= 0`, hence `Int.toNat`. -/
def fillOne (k : Int) (fill_event : Option α) (event : α) : List α :=
  match fill_event with
  | none => List.replicate k.toNat event
  | some f => event :: List.replicate (k - 1).toNat f

/-- `SimpleEventSequence.increase_resolution`: rebuild the event list from the
`fill` of each event and multiply all step/resolution fields by `k`.  The
source performs no validation of `k`. -/
def SimpleEventSequence.increase_resolution (s : SimpleEventSequence α) (k : Int)
    (fill_event : Option α) : SimpleEventSequence α :=
  { s with
    events := (s.events.map (fillOne k fill_event)).flatten
    start_step := s.start_step * k
    end_step := s.end_step * k
    steps_per_bar := s.steps_per_bar * k
    steps_per_quarter := s.steps_per_quarter * k }

/-- `if current_run_length > 0: out.append((current_event, current_run_length))`. -/
def flushRun (c : α) (len : Nat) : List (α × Nat) :=
  if 0 < len then [(c, len)] else []

/-- Loop body of the run-length encoding in
`RunLengthEncodedEventSequence.__init__`, after the first base event has
opened a run `(c, len)`: a run is closed when the incoming event differs from
the current one or the current run has reached `max_run_length`. -/
def encodeGo (m : Nat) (c : α) (len : Nat) : List α → List (α × Nat)
  | [] => flushRun c len
  | x :: xs =>
    if x ≠ c ∨ len = m then
      flushRun c len ++ encodeGo m x 1 xs
    else
      encodeGo m c (len + 1) xs

/-- The run-length encoding loop of `RunLengthEncodedEventSequence.__init__`
(`current_event` starts as the `None` sentinel, so the first base event always
opens a fresh run of length 1). -/
def encodeRuns (m : Nat) : List α → List (α × Nat)
  | [] => []
  | x :: xs => encodeGo m x 1 xs

/-- Modelled from the spec: loop body of the `only_encode_pad_event = true`
encoding mode.  The flag is exercised by the repository's tests
(`events_lib_test.py`) but is absent from the `__init__` present in
`events_lib.py`; per the spec, a run is additionally closed whenever the
incoming event does not equal `pad_event`, so non-pad events never merge. -/
def encodePadOnlyGo (m : Nat) (pad : α) (c : α) (len : Nat) :
    List α → List (α × Nat)
  | [] => flushRun c len
  | x :: xs =>
    if x ≠ c ∨ len = m ∨ x ≠ pad then
      flushRun c len ++ encodePadOnlyGo m pad x 1 xs
    else
      encodePadOnlyGo m pad c (len + 1) xs

/-- Modelled from the spec: the `only_encode_pad_event = true` run-length
encoding of a base event list. -/
def encodePadOnly (m : Nat) (pad : α) : List α → List (α × Nat)
  | [] => []
  | x :: xs => encodePadOnlyGo m pad x 1 xs

/-- Decode a run list: each run's event repeated `run_length` times, in order. -/
def expand : List (α × Nat) → List α
  | [] => []
  | (e, n) :: rest => List.replicate n e ++ expand rest

/-- `RunLengthEncodedEventSequence`: pad event, run-length cap, run list
(field `_events` in the source), start step and resolution.  `end_step` is a
derived property, not a stored field. -/
structure RunLengthEncodedEventSequence (α : Type) where
  pad_event : α
  max_run_length : Nat
  events : List (α × Nat)
  start_step : Int
  steps_per_quarter : Int
deriving DecidableEq

/-- `RunLengthEncodedEventSequence.__init__`: copy `pad_event`, `start_step`
and `steps_per_quarter` from the base sequence and run-length encode its
events.  The source validates only the type of `base_events`; there is no
check on `max_run_length`. -/
def rleEncode (base : SimpleEventSequence α) (max_run_length : Nat) :
    RunLengthEncodedEventSequence α :=
  { pad_event := base.pad_event
    max_run_length := max_run_length
    events := encodeRuns max_run_length base.events
    start_step := base.start_step
    steps_per_quarter := base.steps_per_quarter }

/-- `num_steps` property: sum of the run lengths. -/
def RunLengthEncodedEventSequence.num_steps
    (r : RunLengthEncodedEventSequence α) : Nat :=
  (r.events.map Prod.snd).sum

/-- `end_step` property: `start_step + num_steps`. -/
def RunLengthEncodedEventSequence.end_step
    (r : RunLengthEncodedEventSequence α) : Int :=
  r.start_step + r.num_steps

/-- `RunLengthEncodedEventSequence.append`: validate the run length (positive
and at most `max_run_length`) and append the raw run, without merging. -/
def RunLengthEncodedEventSequence.append (r : RunLengthEncodedEventSequence α)
    (event : α × Nat) : Except String (RunLengthEncodedEventSequence α) :=
  if event.2 < 1 then
    .error "run-length must be positive integer"
  else if r.max_run_length < event.2 then
    .error "run-length exceeds maximum run-length"
  else
    .ok { r with events := r.events ++ [event] }

/-- The `while steps > 0` loop of `_padding`, with explicit fuel.  Each
iteration emits a pad run of `min steps max_run_length` steps.  Fuel `steps`
suffices whenever `1 ≤ m`; for `m = 0` the Python loop does not terminate. -/
def paddingGo (pad : α) (m : Nat) : Nat → Nat → List (α × Nat)
  | 0, _ => []
  | fuel + 1, steps =>
    if steps = 0 then []
    else (pad, min steps m) :: paddingGo pad m fuel (steps - min steps m)

/-- `_padding`: run-length encoded padding consuming `steps` steps. -/
def padding (pad : α) (m : Nat) (steps : Nat) : List (α × Nat) :=
  paddingGo pad m steps steps

/-- Loop body of `_standardize_run_lengths` once a run `(c, len)` is open:
on an event change the open run is flushed; the incoming run length is then
accumulated, and whenever the accumulated length reaches `max_run_length` a
capped run is emitted and the accumulator reduced. -/
def stdGo (m : Nat) (c : α) (len : Nat) : List (α × Nat) → List (α × Nat)
  | [] => flushRun c len
  | (e, n) :: rest =>
    if e ≠ c then
      flushRun c len ++
        (if m ≤ n then (e, m) :: stdGo m e (n - m) rest
         else stdGo m e n rest)
    else
      if m ≤ len + n then (c, m) :: stdGo m c (len + n - m) rest
      else stdGo m c (len + n) rest

/-- `_standardize_run_lengths` (`current_event` starts as the `None` sentinel,
so the first run always opens a fresh accumulator). -/
def standardizeRuns (m : Nat) : List (α × Nat) → List (α × Nat)
  | [] => []
  | (e, n) :: rest =>
    if m ≤ n then (e, m) :: stdGo m e (n - m) rest
    else stdGo m e n rest

/-- The method `_standardize_run_lengths` applied to the whole container:
only the run list is rewritten. -/
def RunLengthEncodedEventSequence.standardize
    (r : RunLengthEncodedEventSequence α) : RunLengthEncodedEventSequence α :=
  { r with events := standardizeRuns r.max_run_length r.events }

/-- The from-left shrink loop of `set_length`, exactly as in the source,
including the buggy line `self._events = self._events[0:]` (a no-op slice):
a fully consumed leading run is never actually removed, the loop merely keeps
subtracting its length from `steps_to_remove`.  Fuel `steps_to_remove`
suffices when every run length is at least 1 (for a leading zero-length run
the Python loop would not terminate). -/
def shrinkLeftGo : Nat → List (α × Nat) → Nat → List (α × Nat)
  | 0, runs, _ => runs
  | _ + 1, [], _ => []
  | fuel + 1, (e, n) :: rest, str =>
    if str = 0 then (e, n) :: rest
    else if str < n then (e, n - str) :: rest
    else shrinkLeftGo fuel ((e, n) :: rest) (str - n)

/-- The from-right shrink loop of `set_length`: reduce the last run if it
exceeds the excess, otherwise drop it (`self._events = self._events[:-1]`)
and continue.  Fuel `runs.length` suffices since every recursive step drops
the last run. -/
def shrinkRightGo : Nat → List (α × Nat) → Nat → List (α × Nat)
  | 0, runs, _ => runs
  | fuel + 1, runs, str =>
    if str = 0 then runs
    else
      (runs.getLast?).elim runs (fun q =>
        if str < q.2 then runs.dropLast ++ [(q.1, q.2 - str)]
        else shrinkRightGo fuel runs.dropLast (str - q.2))

/-- Body of `set_length` before the final `_standardize_run_lengths` call:
grow with `_padding` (prepending and moving `start_step` down when
`from_left`), or shrink from the chosen end (advancing `start_step` when
`from_left`). -/
def setLengthRaw (r : RunLengthEncodedEventSequence α) (steps : Nat)
    (from_left : Bool) : RunLengthEncodedEventSequence α :=
  if r.num_steps < steps then
    let steps_to_add := steps - r.num_steps
    if from_left then
      { r with
        start_step := r.start_step - steps_to_add
        events := padding r.pad_event r.max_run_length steps_to_add ++ r.events }
    else
      { r with events := r.events ++ padding r.pad_event r.max_run_length steps_to_add }
  else
    let steps_to_remove := r.num_steps - steps
    if from_left then
      { r with
        start_step := r.start_step + steps_to_remove
        events := shrinkLeftGo steps_to_remove r.events steps_to_remove }
    else
      { r with events := shrinkRightGo r.events.length r.events steps_to_remove }

/-- `RunLengthEncodedEventSequence.set_length`: resize, then unconditionally
re-standardize the run lengths. -/
def RunLengthEncodedEventSequence.set_length (r : RunLengthEncodedEventSequence α)
    (steps : Nat) (from_left : Bool) : RunLengthEncodedEventSequence α :=
  (setLengthRaw r steps from_left).standardize

/-- `RunLengthEncodedEventSequence.decode`: fail when the target is non-empty
(Python truthiness of a `SimpleEventSequence` is `len != 0`); the check is
performed before any append, and on success each run's event is appended
`run_length` times, in run order. -/
def RunLengthEncodedEventSequence.decode (r : RunLengthEncodedEventSequence α)
    (base : SimpleEventSequence α) : Except String (SimpleEventSequence α) :=
  if base.events.length ≠ 0 then
    .error "cannot decode into non-empty event sequence"
  else
    .ok (base.appendAll (expand r.events))

/-- Canonical form of a run list (spec wording): no two adjacent runs have
equal events unless the earlier run's length is exactly `max_run_length`. -/
def canonicalForm (m : Nat) (runs : List (α × Nat)) : Prop :=
  List.Chain' (fun a b : α × Nat => a.1 = b.1 → a.2 = m) runs

example : encodeRuns 2 ['A', 'A', 'A', 'B', 'C', 'C'] =
    [('A', 2), ('A', 1), ('B', 1), ('C', 2)] := by decide

example : encodePadOnly 2 '_' ['A', 'A', '_', '_', '_', 'B'] =
    [('A', 1), ('A', 1), ('_', 2), ('_', 1), ('B', 1)] := by decide

example : padding '_' 2 3 = [('_', 2), ('_', 1)] := by decide

example : standardizeRuns 2 [('_', 2), ('_', 2), ('_', 1)] =
    [('_', 2), ('_', 2), ('_', 1)] := by decide

/-! ### Basic lemmas about `expand`, `flushRun` and `appendAll` -/

theorem expand_append (l₁ l₂ : List (α × Nat)) :
    expand (l₁ ++ l₂) = expand l₁ ++ expand l₂ := by
  induction l₁ with
  | nil => rfl
  | cons p rest ih =>
    obtain ⟨e, n⟩ := p
    simp [expand, ih]

theorem expand_flushRun (c : α) (len : Nat) :
    expand (flushRun c len) = List.replicate len c := by
  by_cases h : 0 < len
  · simp [flushRun, h, expand]
  · have hz : len = 0 := by omega
    simp [flushRun, h, hz, expand]

theorem expand_length (l : List (α × Nat)) :
    (expand l).length = (l.map Prod.snd).sum := by
  induction l with
  | nil => rfl
  | cons p rest ih =>
    obtain ⟨e, n⟩ := p
    simp [expand, ih]

theorem appendAll_events (s : SimpleEventSequence α) (xs : List α) :
    (s.appendAll xs).events = s.events ++ xs := by
  induction xs generalizing s with
  | nil => simp [SimpleEventSequence.appendAll]
  | cons x xs ih =>
    have : s.appendAll (x :: xs) = (s.append x).appendAll xs := rfl
    rw [this, ih]
    simp [SimpleEventSequence.append]

theorem appendAll_start_step (s : SimpleEventSequence α) (xs : List α) :
    (s.appendAll xs).start_step = s.start_step := by
  induction xs generalizing s with
  | nil => rfl
  | cons x xs ih =>
    have : s.appendAll (x :: xs) = (s.append x).appendAll xs := rfl
    rw [this, ih]
    rfl

theorem appendAll_end_step (s : SimpleEventSequence α) (xs : List α) :
    (s.appendAll xs).end_step = s.end_step + xs.length := by
  induction xs generalizing s with
  | nil => simp [SimpleEventSequence.appendAll]
  | cons x xs ih =>
    have : s.appendAll (x :: xs) = (s.append x).appendAll xs := rfl
    rw [this, ih]
    simp [SimpleEventSequence.append]
    omega

/-! ### The encoding loop decodes back to its input -/

theorem encodeGo_expand (m : Nat) (xs : List α) :
    ∀ (c : α) (len : Nat),
      expand (encodeGo m c len xs) = List.replicate len c ++ xs := by
  induction xs with
  | nil =>
    intro c len
    simp [encodeGo, expand_flushRun]
  | cons x xs ih =>
    intro c len
    by_cases hc : x ≠ c ∨ len = m
    · simp only [encodeGo, if_pos hc, expand_append, expand_flushRun, ih x 1]
      simp
    · have hxc : x = c := by
        by_contra hne
        exact hc (Or.inl hne)
      subst hxc
      simp only [encodeGo, if_neg hc]
      rw [ih x (len + 1), List.replicate_succ']
      simp

theorem encodeRuns_expand (m : Nat) (xs : List α) :
    expand (encodeRuns m xs) = xs := by
  cases xs with
  | nil => rfl
  | cons x xs =>
    rw [encodeRuns, encodeGo_expand m xs x 1]
    simp

/-! ### Standardization preserves the decoded sequence -/

theorem replicate_chunk (e : α) {m n : Nat} (h : m ≤ n) :
    List.replicate m e ++ List.replicate (n - m) e = List.replicate n e := by
  rw [← List.replicate_add]
  congr 1
  omega

theorem stdGo_expand (m : Nat) (rest : List (α × Nat)) :
    ∀ (c : α) (len : Nat),
      expand (stdGo m c len rest) = List.replicate len c ++ expand rest := by
  induction rest with
  | nil =>
    intro c len
    simp [stdGo, expand_flushRun, expand]
  | cons p rest ih =>
    intro c len
    obtain ⟨e, n⟩ := p
    by_cases hec : e ≠ c
    · by_cases hmn : m ≤ n
      · simp only [stdGo, if_pos hec, if_pos hmn, expand_append, expand_flushRun,
          expand, ih]
        congr 1
        rw [← List.append_assoc, replicate_chunk e hmn]
      · simp only [stdGo, if_pos hec, if_neg hmn, expand_append, expand_flushRun,
          expand, ih]
    · have he : e = c := by
        by_contra h
        exact hec h
      subst he
      by_cases hmn : m ≤ len + n
      · simp only [stdGo, if_neg hec, if_pos hmn, expand, ih]
        have h1 : List.replicate m e ++ (List.replicate (len + n - m) e ++ expand rest) =
            List.replicate (len + n) e ++ expand rest := by
          rw [← List.append_assoc, replicate_chunk e hmn]
        have h2 : List.replicate len e ++ (List.replicate n e ++ expand rest) =
            List.replicate (len + n) e ++ expand rest := by
          rw [← List.append_assoc, ← List.replicate_add]
        rw [h1, h2]
      · simp only [stdGo, if_neg hec, if_neg hmn, ih]
        rw [List.replicate_add, List.append_assoc]
        simp [expand]

theorem standardizeRuns_expand (m : Nat) (l : List (α × Nat)) :
    expand (standardizeRuns m l) = expand l := by
  cases l with
  | nil => rfl
  | cons p rest =>
    obtain ⟨e, n⟩ := p
    by_cases hmn : m ≤ n
    · simp only [standardizeRuns, if_pos hmn, expand, stdGo_expand]
      rw [← List.append_assoc, replicate_chunk e hmn]
    · simp only [standardizeRuns, if_neg hmn, stdGo_expand, expand]

/-! ### Run-length bounds -/

theorem flushRun_mem {c : α} {len : Nat} {p : α × Nat}
    (h : p ∈ flushRun c len) : p = (c, len) ∧ 0 < len := by
  unfold flushRun at h
  by_cases hl : 0 < len
  · rw [if_pos hl] at h
    simp at h
    exact ⟨h, hl⟩
  · rw [if_neg hl] at h
    simp at h

theorem encodeGo_bound (m : Nat) (xs : List α) :
    ∀ (c : α) (len : Nat), 1 ≤ len → len ≤ m →
      ∀ p ∈ encodeGo m c len xs, 1 ≤ p.2 ∧ p.2 ≤ m := by
  induction xs with
  | nil =>
    intro c len h1 h2 p hp
    obtain ⟨rfl, -⟩ := flushRun_mem hp
    exact ⟨h1, h2⟩
  | cons x xs ih =>
    intro c len h1 h2 p hp
    by_cases hc : x ≠ c ∨ len = m
    · rw [encodeGo, if_pos hc] at hp
      rcases List.mem_append.1 hp with hp | hp
      · obtain ⟨rfl, -⟩ := flushRun_mem hp
        exact ⟨h1, h2⟩
      · exact ih x 1 le_rfl (by omega) p hp
    · rw [encodeGo, if_neg hc] at hp
      have hlm : len ≠ m := fun h => hc (Or.inr h)
      exact ih c (len + 1) (by omega) (by omega) p hp

theorem encodeRuns_bound (m : Nat) (hm : 1 ≤ m) (xs : List α) :
    ∀ p ∈ encodeRuns m xs, 1 ≤ p.2 ∧ p.2 ≤ m := by
  cases xs with
  | nil => intro p hp; simp [encodeRuns] at hp
  | cons x xs => exact encodeGo_bound m xs x 1 le_rfl hm

theorem stdGo_bound (m : Nat) (hm : 1 ≤ m) (rest : List (α × Nat)) :
    ∀ (c : α) (len : Nat), len < m →
      (∀ p ∈ rest, 1 ≤ p.2 ∧ p.2 ≤ m) →
      ∀ p ∈ stdGo m c len rest, 1 ≤ p.2 ∧ p.2 ≤ m := by
  induction rest with
  | nil =>
    intro c len hlen _ p hp
    obtain ⟨rfl, h0⟩ := flushRun_mem hp
    exact ⟨h0, by omega⟩
  | cons q rest ih =>
    intro c len hlen hrest p hp
    obtain ⟨e, n⟩ := q
    have hn : 1 ≤ n ∧ n ≤ m := hrest (e, n) (List.mem_cons_self _ _)
    have hrest' : ∀ p ∈ rest, 1 ≤ p.2 ∧ p.2 ≤ m :=
      fun p hp => hrest p (List.mem_cons_of_mem _ hp)
    by_cases hec : e ≠ c
    · rw [stdGo, if_pos hec] at hp
      rcases List.mem_append.1 hp with hp | hp
      · obtain ⟨rfl, h0⟩ := flushRun_mem hp
        exact ⟨h0, by omega⟩
      · by_cases hmn : m ≤ n
        · rw [if_pos hmn] at hp
          rcases List.mem_cons.1 hp with rfl | hp
          · exact ⟨hm, le_rfl⟩
          · exact ih e (n - m) (by omega) hrest' p hp
        · rw [if_neg hmn] at hp
          exact ih e n (by omega) hrest' p hp
    · rw [stdGo, if_neg hec] at hp
      by_cases hmn : m ≤ len + n
      · rw [if_pos hmn] at hp
        rcases List.mem_cons.1 hp with rfl | hp
        · exact ⟨hm, le_rfl⟩
        · exact ih c (len + n - m) (by omega) hrest' p hp
      · rw [if_neg hmn] at hp
        exact ih c (len + n) (by omega) hrest' p hp

theorem standardizeRuns_bound (m : Nat) (hm : 1 ≤ m) (l : List (α × Nat))
    (hl : ∀ p ∈ l, 1 ≤ p.2 ∧ p.2 ≤ m) :
    ∀ p ∈ standardizeRuns m l, 1 ≤ p.2 ∧ p.2 ≤ m := by
  cases l with
  | nil => intro p hp; simp [standardizeRuns] at hp
  | cons q rest =>
    obtain ⟨e, n⟩ := q
    have hn : 1 ≤ n ∧ n ≤ m := hl (e, n) (List.mem_cons_self _ _)
    have hrest' : ∀ p ∈ rest, 1 ≤ p.2 ∧ p.2 ≤ m :=
      fun p hp => hl p (List.mem_cons_of_mem _ hp)
    intro p hp
    by_cases hmn : m ≤ n
    · rw [standardizeRuns, if_pos hmn] at hp
      rcases List.mem_cons.1 hp with rfl | hp
      · exact ⟨hm, le_rfl⟩
      · exact stdGo_bound m hm rest e (n - m) (by omega) hrest' p hp
    · rw [standardizeRuns, if_neg hmn] at hp
      exact stdGo_bound m hm rest e n (by omega) hrest' p hp

theorem paddingGo_bound (pad : α) (m : Nat) (hm : 1 ≤ m) (fuel : Nat) :
    ∀ steps, ∀ p ∈ paddingGo pad m fuel steps, 1 ≤ p.2 ∧ p.2 ≤ m := by
  induction fuel with
  | zero => intro steps p hp; simp [paddingGo] at hp
  | succ fuel ih =>
    intro steps p hp
    by_cases hs : steps = 0
    · rw [paddingGo, if_pos hs] at hp
      simp at hp
    · rw [paddingGo, if_neg hs] at hp
      rcases List.mem_cons.1 hp with rfl | hp
      · exact ⟨by omega, Nat.min_le_right _ _⟩
      · exact ih _ p hp

/-- Every run produced by either shrink loop is either an untouched run of the
input list, or the reduction of an input run by the excess (which leaves it
with positive length at most the original). -/
theorem shrinkLeftGo_mem (fuel : Nat) :
    ∀ (runs : List (α × Nat)) (str : Nat), ∀ p ∈ shrinkLeftGo fuel runs str,
      p ∈ runs ∨ ∃ q ∈ runs, p.1 = q.1 ∧ 1 ≤ p.2 ∧ p.2 ≤ q.2 := by
  induction fuel with
  | zero => intro runs str p hp; exact Or.inl hp
  | succ fuel ih =>
    intro runs str p hp
    match runs with
    | [] =>
      simp only [shrinkLeftGo] at hp
      exact absurd hp (List.not_mem_nil p)
    | (e, n) :: rest =>
      simp only [shrinkLeftGo] at hp
      by_cases hs : str = 0
      · rw [if_pos hs] at hp
        exact Or.inl hp
      · rw [if_neg hs] at hp
        by_cases hn : str < n
        · rw [if_pos hn] at hp
          rcases List.mem_cons.1 hp with rfl | hp
          · exact Or.inr ⟨(e, n), List.mem_cons_self _ _, rfl, by omega, by omega⟩
          · exact Or.inl (List.mem_cons_of_mem _ hp)
        · rw [if_neg hn] at hp
          exact ih _ _ p hp

theorem shrinkRightGo_mem (fuel : Nat) :
    ∀ (runs : List (α × Nat)) (str : Nat), ∀ p ∈ shrinkRightGo fuel runs str,
      p ∈ runs ∨ ∃ q ∈ runs, p.1 = q.1 ∧ 1 ≤ p.2 ∧ p.2 ≤ q.2 := by
  induction fuel with
  | zero => intro runs str p hp; exact Or.inl hp
  | succ fuel ih =>
    intro runs str p hp
    simp only [shrinkRightGo] at hp
    by_cases hs : str = 0
    · rw [if_pos hs] at hp
      exact Or.inl hp
    · rw [if_neg hs] at hp
      rcases hlast : runs.getLast? with - | q
      · rw [hlast] at hp
        exact Or.inl hp
      · obtain ⟨e, n⟩ := q
        have hqmem : (e, n) ∈ runs := by
          obtain ⟨hne, heq⟩ := List.mem_getLast?_eq_getLast (l := runs)
            (x := (e, n)) (Option.mem_def.mpr hlast)
          rw [heq]
          exact List.getLast_mem hne
        rw [hlast] at hp
        simp only [Option.elim] at hp
        by_cases hn : str < n
        · rw [if_pos hn] at hp
          rcases List.mem_append.1 hp with hp | hp
          · exact Or.inl (List.mem_of_mem_dropLast hp)
          · simp at hp
            subst hp
            exact Or.inr ⟨(e, n), hqmem, rfl, by omega, by omega⟩
        · rw [if_neg hn] at hp
          rcases ih _ _ p hp with hp | ⟨q, hq, hq1, hq2, hq3⟩
          · exact Or.inl (List.mem_of_mem_dropLast hp)
          · exact Or.inr ⟨q, List.mem_of_mem_dropLast hq, hq1, hq2, hq3⟩

/-! ### Canonical form after standardization -/

/-- When the accumulator is open (`1 ≤ len`), the output of the
standardization loop is non-empty and starts with a run for the current
event. -/
theorem stdGo_head (m : Nat) (rest : List (α × Nat)) :
    ∀ (c : α) (len : Nat), 1 ≤ len →
      ∃ k tl, stdGo m c len rest = (c, k) :: tl := by
  induction rest with
  | nil =>
    intro c len h
    refine ⟨len, [], ?_⟩
    simp only [stdGo, flushRun]
    rw [if_pos (show 0 < len by omega)]
  | cons p rest ih =>
    intro c len h
    obtain ⟨e, n⟩ := p
    by_cases hec : e ≠ c
    · refine ⟨len,
        (if m ≤ n then (e, m) :: stdGo m e (n - m) rest else stdGo m e n rest), ?_⟩
      simp only [stdGo, if_pos hec, flushRun]
      rw [if_pos (show 0 < len by omega)]
      rfl
    · have he : e = c := by
        by_contra hne
        exact hec hne
      subst he
      by_cases hmn : m ≤ len + n
      · refine ⟨m, stdGo m e (len + n - m) rest, ?_⟩
        simp only [stdGo, if_neg hec, if_pos hmn]
      · obtain ⟨k, tl, htl⟩ := ih e (len + n) (by omega)
        refine ⟨k, tl, ?_⟩
        simp only [stdGo, if_neg hec, if_neg hmn]
        exact htl

/-- The standardization loop emits a canonical run list: two adjacent runs for
the same event only occur with the earlier one capped at `max_run_length`.
Requires all remaining input runs to be non-empty. -/
theorem stdGo_chain (m : Nat) (rest : List (α × Nat)) :
    ∀ (c : α) (len : Nat), (∀ p ∈ rest, 1 ≤ p.2) →
      List.Chain' (fun a b : α × Nat => a.1 = b.1 → a.2 = m) (stdGo m c len rest) := by
  induction rest with
  | nil =>
    intro c len _
    simp only [stdGo, flushRun]
    by_cases h : 0 < len
    · rw [if_pos h]
      exact List.chain'_singleton _
    · rw [if_neg h]
      exact List.chain'_nil
  | cons p rest ih =>
    intro c len hrest
    obtain ⟨e, n⟩ := p
    have hn : 1 ≤ n := hrest (e, n) (List.mem_cons_self _ _)
    have hrest' : ∀ p ∈ rest, 1 ≤ p.2 :=
      fun p hp => hrest p (List.mem_cons_of_mem _ hp)
    by_cases hec : e ≠ c
    · have hS : List.Chain' (fun a b : α × Nat => a.1 = b.1 → a.2 = m)
          (if m ≤ n then (e, m) :: stdGo m e (n - m) rest
           else stdGo m e n rest) := by
        by_cases hmn : m ≤ n
        · rw [if_pos hmn, List.chain'_cons']
          exact ⟨fun y _ _ => rfl, ih e (n - m) hrest'⟩
        · rw [if_neg hmn]
          exact ih e n hrest'
      have hhead : ∀ y ∈ (if m ≤ n then (e, m) :: stdGo m e (n - m) rest
          else stdGo m e n rest).head?, y.1 = e := by
        by_cases hmn : m ≤ n
        · rw [if_pos hmn]
          intro y hy
          simp at hy
          rw [← hy]
        · rw [if_neg hmn]
          intro y hy
          obtain ⟨k, tl, htl⟩ := stdGo_head m rest e n hn
          rw [htl] at hy
          simp at hy
          rw [← hy]
      simp only [stdGo, if_pos hec, flushRun]
      by_cases hl : 0 < len
      · rw [if_pos hl, List.singleton_append, List.chain'_cons']
        refine ⟨?_, hS⟩
        intro y hy hcy
        exact absurd (hcy.trans (hhead y hy)).symm hec
      · rw [if_neg hl, List.nil_append]
        exact hS
    · have he : e = c := by
        by_contra hne
        exact hec hne
      subst he
      by_cases hmn : m ≤ len + n
      · simp only [stdGo, if_neg hec, if_pos hmn]
        rw [List.chain'_cons']
        exact ⟨fun y _ _ => rfl, ih e (len + n - m) hrest'⟩
      · simp only [stdGo, if_neg hec, if_neg hmn]
        exact ih e (len + n) hrest'

theorem standardizeRuns_chain (m : Nat) (l : List (α × Nat))
    (hl : ∀ p ∈ l, 1 ≤ p.2) :
    canonicalForm m (standardizeRuns m l) := by
  cases l with
  | nil => exact List.chain'_nil
  | cons p rest =>
    obtain ⟨e, n⟩ := p
    have hrest' : ∀ p ∈ rest, 1 ≤ p.2 :=
      fun p hp => hl p (List.mem_cons_of_mem _ hp)
    by_cases hmn : m ≤ n
    · simp only [canonicalForm, standardizeRuns, if_pos hmn]
      rw [List.chain'_cons']
      exact ⟨fun y _ _ => rfl, stdGo_chain m rest e (n - m) hrest'⟩
    · simp only [canonicalForm, standardizeRuns, if_neg hmn]
      exact stdGo_chain m rest e n hrest'

/-! ### Facts about `setLengthRaw` (the body of `set_length` before
re-standardization) -/

theorem setLengthRaw_max (r : RunLengthEncodedEventSequence α) (steps : Nat)
    (fl : Bool) : (setLengthRaw r steps fl).max_run_length = r.max_run_length := by
  cases fl <;> by_cases h1 : r.num_steps < steps <;>
    simp [setLengthRaw, h1]

theorem setLengthRaw_start (r : RunLengthEncodedEventSequence α) (steps : Nat)
    (fl : Bool) :
    (setLengthRaw r steps fl).start_step =
      if r.num_steps < steps then
        (if fl then r.start_step - ((steps - r.num_steps : Nat) : Int)
         else r.start_step)
      else
        (if fl then r.start_step + ((r.num_steps - steps : Nat) : Int)
         else r.start_step) := by
  cases fl <;> by_cases h1 : r.num_steps < steps <;>
    simp [setLengthRaw, h1]

theorem setLengthRaw_events (r : RunLengthEncodedEventSequence α) (steps : Nat)
    (fl : Bool) :
    (setLengthRaw r steps fl).events =
      if r.num_steps < steps then
        (if fl then
          padding r.pad_event r.max_run_length (steps - r.num_steps) ++ r.events
         else
          r.events ++ padding r.pad_event r.max_run_length (steps - r.num_steps))
      else
        (if fl then
          shrinkLeftGo (r.num_steps - steps) r.events (r.num_steps - steps)
         else
          shrinkRightGo r.events.length r.events (r.num_steps - steps)) := by
  cases fl <;> by_cases h1 : r.num_steps < steps <;>
    simp [setLengthRaw, h1]

theorem setLengthRaw_ge_one (r : RunLengthEncodedEventSequence α) (steps : Nat)
    (fl : Bool) (hm : 1 ≤ r.max_run_length) (h : ∀ p ∈ r.events, 1 ≤ p.2) :
    ∀ p ∈ (setLengthRaw r steps fl).events, 1 ≤ p.2 := by
  intro p hp
  rw [setLengthRaw_events] at hp
  by_cases h1 : r.num_steps < steps
  · rw [if_pos h1] at hp
    cases fl with
    | false =>
      rw [if_neg Bool.false_ne_true] at hp
      rcases List.mem_append.1 hp with hp | hp
      · exact h p hp
      · exact (paddingGo_bound r.pad_event r.max_run_length hm _ _ p hp).1
    | true =>
      rw [if_pos rfl] at hp
      rcases List.mem_append.1 hp with hp | hp
      · exact (paddingGo_bound r.pad_event r.max_run_length hm _ _ p hp).1
      · exact h p hp
  · rw [if_neg h1] at hp
    cases fl with
    | false =>
      rw [if_neg Bool.false_ne_true] at hp
      rcases shrinkRightGo_mem _ _ _ p hp with hp | ⟨q, hq, _, h2, _⟩
      · exact h p hp
      · exact h2
    | true =>
      rw [if_pos rfl] at hp
      rcases shrinkLeftGo_mem _ _ _ p hp with hp | ⟨q, hq, _, h2, _⟩
      · exact h p hp
      · exact h2

theorem setLengthRaw_bound (r : RunLengthEncodedEventSequence α) (steps : Nat)
    (fl : Bool) (hm : 1 ≤ r.max_run_length)
    (h : ∀ p ∈ r.events, 1 ≤ p.2 ∧ p.2 ≤ r.max_run_length) :
    ∀ p ∈ (setLengthRaw r steps fl).events, 1 ≤ p.2 ∧ p.2 ≤ r.max_run_length := by
  intro p hp
  rw [setLengthRaw_events] at hp
  by_cases h1 : r.num_steps < steps
  · rw [if_pos h1] at hp
    cases fl with
    | false =>
      rw [if_neg Bool.false_ne_true] at hp
      rcases List.mem_append.1 hp with hp | hp
      · exact h p hp
      · exact paddingGo_bound r.pad_event r.max_run_length hm _ _ p hp
    | true =>
      rw [if_pos rfl] at hp
      rcases List.mem_append.1 hp with hp | hp
      · exact paddingGo_bound r.pad_event r.max_run_length hm _ _ p hp
      · exact h p hp
  · rw [if_neg h1] at hp
    cases fl with
    | false =>
      rw [if_neg Bool.false_ne_true] at hp
      rcases shrinkRightGo_mem _ _ _ p hp with hp | ⟨q, hq, _, h2, h3⟩
      · exact h p hp
      · exact ⟨h2, le_trans h3 (h q hq).2⟩
    | true =>
      rw [if_pos rfl] at hp
      rcases shrinkLeftGo_mem _ _ _ p hp with hp | ⟨q, hq, _, h2, h3⟩
      · exact h p hp
      · exact ⟨h2, le_trans h3 (h q hq).2⟩


/-! ### The pad-only encoding invariant -/

theorem encodePadOnlyGo_inv (m : Nat) (pad : α) (xs : List α) :
    ∀ (c : α) (len : Nat), 1 ≤ len → len ≤ m → (c ≠ pad → len = 1) →
      ∀ p ∈ encodePadOnlyGo m pad c len xs,
        (p.1 ≠ pad → p.2 = 1) ∧ 1 ≤ p.2 ∧ p.2 ≤ m := by
  induction xs with
  | nil =>
    intro c len h1 h2 h3 p hp
    obtain ⟨rfl, -⟩ := flushRun_mem hp
    exact ⟨h3, h1, h2⟩
  | cons x xs ih =>
    intro c len h1 h2 h3 p hp
    by_cases hc : x ≠ c ∨ len = m ∨ x ≠ pad
    · rw [encodePadOnlyGo, if_pos hc] at hp
      rcases List.mem_append.1 hp with hp | hp
      · obtain ⟨rfl, -⟩ := flushRun_mem hp
        exact ⟨h3, h1, h2⟩
      · exact ih x 1 le_rfl (by omega) (fun _ => rfl) p hp
    · have hxc : x = c := by
        by_contra hne
        exact hc (Or.inl hne)
      have hlm : len ≠ m := fun hl => hc (Or.inr (Or.inl hl))
      have hxpad : x = pad := by
        by_contra hne
        exact hc (Or.inr (Or.inr hne))
      have hcpad : c = pad := by
        rw [← hxc]
        exact hxpad
      rw [encodePadOnlyGo, if_neg hc] at hp
      exact ih c (len + 1) (by omega) (by omega)
        (fun hne => absurd hcpad hne) p hp

/-! ### Claim theorems -/

/-- Claim C1, counterexample: decoding into an empty target whose
`start_step` differs from the source sequence's reproduces the events but not
`start_step` — here the source starts at step 1 but the decoded target starts
at step 0, so the round trip does not match `start_step` for every empty
target. -/
theorem claim1_counterexample :
    (rleEncode (fromEventList (0 : Nat) [5] 1 16 4) 2).decode
        (emptySeq 0 0 16 4) =
      Except.ok { pad_event := 0, events := [5], start_step := 0, end_step := 1,
                  steps_per_bar := 16, steps_per_quarter := 4 } ∧
    (0 : Int) ≠ (fromEventList (0 : Nat) [5] 1 16 4).start_step := by
  constructor
  · rfl
  · decide

/-- Claim C1 (amended): for every base sequence `S`, cap `m ≥ 1`, and empty
target whose `start_step` equals `S.start_step`, `decode` succeeds, appends
each run's event `run_length` times in run order reproducing exactly the
event list of `S`, and afterwards the target's `start_step` and `end_step`
equal those of `S`. -/
theorem claim1_round_trip (pad tpad : α) (xs : List α)
    (start spb spq tspb tspq : Int) (m : Nat) (hm : 1 ≤ m) :
    ∃ t, (rleEncode (fromEventList pad xs start spb spq) m).decode
        (emptySeq tpad start tspb tspq) = Except.ok t ∧
      t.events = xs ∧ t.start_step = start ∧
      t.end_step = (fromEventList pad xs start spb spq).end_step := by
  refine ⟨(emptySeq tpad start tspb tspq).appendAll (expand (encodeRuns m xs)),
    ?_, ?_, ?_, ?_⟩
  · rw [RunLengthEncodedEventSequence.decode, if_neg (by simp [emptySeq])]
    rfl
  · rw [appendAll_events, encodeRuns_expand]
    rfl
  · rw [appendAll_start_step]
    rfl
  · rw [appendAll_end_step, encodeRuns_expand]
    rfl

/-- Claim C1, witness for the amended round trip at a concrete input. -/
theorem claim1_witness :
    ∃ t, (rleEncode (fromEventList (0 : Nat) [7, 7, 7] 5 16 4) 2).decode
        (emptySeq 0 5 16 4) = Except.ok t ∧
      t.events = [7, 7, 7] ∧ t.start_step = 5 ∧
      t.end_step = (fromEventList (0 : Nat) [7, 7, 7] 5 16 4).end_step :=
  claim1_round_trip 0 0 [7, 7, 7] 5 16 4 16 4 2 (by decide)

/-- Claim C2: the from-left shrink path of `set_length` never removes a fully
consumed leading run (the source line `self._events = self._events[0:]` is a
no-op slice).  Shrinking `[(0, 1), (1, 1)]` (the encoding of `[0, 1]`) from
the left to 1 step leaves both runs in place: `num_steps` stays 2 instead of
becoming 1, `start_step` is still advanced by the excess, `end_step` moves
from 2 to 3 instead of staying 2, and the sequence still decodes to `[0, 1]`
rather than to the final step `[1]`. -/
theorem claim2_shrink_left_bug :
    ((rleEncode (fromEventList (9 : Nat) [0, 1] 0 16 4) 2).set_length 1
        true).events = [(0, 1), (1, 1)] ∧
    ((rleEncode (fromEventList (9 : Nat) [0, 1] 0 16 4) 2).set_length 1
        true).num_steps = 2 ∧
    ((rleEncode (fromEventList (9 : Nat) [0, 1] 0 16 4) 2).set_length 1
        true).start_step = 1 ∧
    ((rleEncode (fromEventList (9 : Nat) [0, 1] 0 16 4) 2).set_length 1
        true).end_step = 3 ∧
    (rleEncode (fromEventList (9 : Nat) [0, 1] 0 16 4) 2).end_step = 2 ∧
    expand ((rleEncode (fromEventList (9 : Nat) [0, 1] 0 16 4) 2).set_length 1
        true).events ≠ [1] := by
  decide

/-- Claim C3 (spec-modelled): under `only_encode_pad_event = true`, every run
whose event differs from `pad_event` has run length exactly 1 (non-pad events
never merge), all run lengths lie in `[1, max_run_length]`, and on the spec's
concrete example the encoding is `[(A,1),(A,1),(_,2),(_,1),(B,1)]`. -/
theorem claim3_pad_only (m : Nat) (pad : α) (xs : List α) (hm : 1 ≤ m) :
    (∀ p ∈ encodePadOnly m pad xs, (p.1 ≠ pad → p.2 = 1) ∧ 1 ≤ p.2 ∧ p.2 ≤ m) ∧
    encodePadOnly 2 '_' ['A', 'A', '_', '_', '_', 'B'] =
      [('A', 1), ('A', 1), ('_', 2), ('_', 1), ('B', 1)] := by
  constructor
  · cases xs with
    | nil => intro p hp; simp [encodePadOnly] at hp
    | cons x xs =>
      exact encodePadOnlyGo_inv m pad xs x 1 le_rfl hm (fun _ => rfl)
  · decide

/-- Claim C3, witness at a concrete input. -/
theorem claim3_witness :
    ((('A', 1) : Char × Nat).1 ≠ '_' → (('A', 1) : Char × Nat).2 = 1) ∧
      1 ≤ (('A', 1) : Char × Nat).2 ∧ (('A', 1) : Char × Nat).2 ≤ 2 :=
  (claim3_pad_only 2 '_' ['A', 'A', '_'] (by decide)).1 ('A', 1) (by decide)

/-- Claim C4: after any `set_length` call (growing or shrinking, from either
end) on a sequence with positive cap and positive run lengths, the run list
is in canonical form: no two adjacent runs have equal events unless the
earlier run's length is exactly `max_run_length`. -/
theorem claim4_canonical_post_resize (r : RunLengthEncodedEventSequence α)
    (steps : Nat) (from_left : Bool) (hm : 1 ≤ r.max_run_length)
    (h : ∀ p ∈ r.events, 1 ≤ p.2) :
    canonicalForm r.max_run_length (r.set_length steps from_left).events := by
  show canonicalForm r.max_run_length
    (standardizeRuns (setLengthRaw r steps from_left).max_run_length
      (setLengthRaw r steps from_left).events)
  rw [setLengthRaw_max]
  exact standardizeRuns_chain _ _ (setLengthRaw_ge_one r steps from_left hm h)

/-- Claim C4, witness at a concrete input. -/
theorem claim4_witness :
    canonicalForm 2
      ((rleEncode (fromEventList (9 : Nat) [7, 7, 7] 0 16 4) 2).set_length 5
        false).events :=
  claim4_canonical_post_resize
    (rleEncode (fromEventList (9 : Nat) [7, 7, 7] 0 16 4) 2)
    5 false (by decide) (by decide)

/-- Claim C5: with cap `m ≥ 1`, every run produced by the encoding
constructor has length in `[1, m]`, and `set_length` (which re-standardizes)
preserves that bound. -/
theorem claim5_run_length_bound (m : Nat) (hm : 1 ≤ m) :
    (∀ xs : List α, ∀ p ∈ encodeRuns m xs, 1 ≤ p.2 ∧ p.2 ≤ m) ∧
    (∀ r : RunLengthEncodedEventSequence α, r.max_run_length = m →
      (∀ p ∈ r.events, 1 ≤ p.2 ∧ p.2 ≤ m) → ∀ steps from_left,
        ∀ p ∈ (r.set_length steps from_left).events, 1 ≤ p.2 ∧ p.2 ≤ m) := by
  constructor
  · intro xs
    exact encodeRuns_bound m hm xs
  · intro r hrm hr steps from_left p hp
    subst hrm
    have hp' : p ∈ standardizeRuns
        (setLengthRaw r steps from_left).max_run_length
        (setLengthRaw r steps from_left).events := hp
    have hm' : 1 ≤ (setLengthRaw r steps from_left).max_run_length := by
      rw [setLengthRaw_max]
      exact hm
    have hb : ∀ q ∈ (setLengthRaw r steps from_left).events,
        1 ≤ q.2 ∧ q.2 ≤ (setLengthRaw r steps from_left).max_run_length := by
      intro q hq
      rw [setLengthRaw_max]
      exact setLengthRaw_bound r steps from_left hm hr q hq
    have := standardizeRuns_bound _ hm' _ hb p hp'
    rw [setLengthRaw_max] at this
    exact this

/-- Claim C5, witness at a concrete input. -/
theorem claim5_witness :
    1 ≤ ((7, 2) : Nat × Nat).2 ∧ ((7, 2) : Nat × Nat).2 ≤ 2 :=
  (claim5_run_length_bound 2 (by decide)).1 [7, 7, 7, 8] (7, 2) (by decide)

/-- Claim C6, counterexample: the constructor performs no validation of
`max_run_length` — with `max_run_length = 0` a run list is still produced
(and, with no cap ever reached, equal consecutive events merge without
bound), instead of failing. -/
theorem claim6_counterexample :
    (rleEncode (fromEventList (9 : Nat) [7, 7] 0 16 4) 0).events = [(7, 2)] := by
  decide

/-- Claim C6 (amended): constructing with `max_run_length = 0` (i.e. below 1)
raises no validation error; the encoding still succeeds, produces a run list
for every base sequence, still decodes back to exactly the base events, and
still copies `start_step`. -/
theorem claim6_no_validation (base : SimpleEventSequence α) :
    expand ((rleEncode base 0).events) = base.events ∧
    (rleEncode base 0).start_step = base.start_step :=
  ⟨encodeRuns_expand 0 base.events, rfl⟩

/-- Claim C7: `decode` fails exactly when the target is non-empty, and in
that case it returns the validation error (raised before any append, so
neither the target nor the encoded sequence is touched). -/
theorem claim7_decode_precondition (r : RunLengthEncodedEventSequence α)
    (base : SimpleEventSequence α) :
    ((∃ e, r.decode base = Except.error e) ↔ base.events ≠ []) ∧
    (base.events ≠ [] →
      r.decode base =
        Except.error "cannot decode into non-empty event sequence") := by
  have hcond : base.events.length ≠ 0 ↔ base.events ≠ [] := by
    simp [List.length_eq_zero]
  constructor
  · constructor
    · rintro ⟨e, he⟩ hnil
      rw [RunLengthEncodedEventSequence.decode,
        if_neg (by simp [hnil])] at he
      simp at he
    · intro hne
      exact ⟨_, by rw [RunLengthEncodedEventSequence.decode,
        if_pos (hcond.mpr hne)]⟩
  · intro hne
    rw [RunLengthEncodedEventSequence.decode, if_pos (hcond.mpr hne)]

/-- Claim C7, witness at a concrete input. -/
theorem claim7_witness :
    (rleEncode (emptySeq (0 : Nat) 0 16 4) 2).decode
        (fromEventList 0 [1] 0 16 4) =
      Except.error "cannot decode into non-empty event sequence" :=
  (claim7_decode_precondition (rleEncode (emptySeq (0 : Nat) 0 16 4) 2)
    (fromEventList 0 [1] 0 16 4)).2 (by decide)

/-- Claim C8, counterexample: `increase_resolution` does not fail fast for
`k = 0`; it returns a changed sequence (events emptied, steps zeroed) rather
than raising a validation error and leaving the sequence unchanged. -/
theorem claim8_counterexample :
    ((fromEventList (0 : Nat) [1] 5 4 1).increase_resolution 0 none).events
        = [] ∧
    ((fromEventList (0 : Nat) [1] 5 4 1).increase_resolution 0 none)
        ≠ fromEventList (0 : Nat) [1] 5 4 1 := by
  decide

/-- Claim C8 (amended): for every `k ≤ 0`, `increase_resolution` performs no
validation and raises no error; with `fill_event` unset it replaces the event
list by the empty list (Python list repetition with a non-positive count) and
multiplies `start_step`, `end_step`, `steps_per_bar` and `steps_per_quarter`
by `k`. -/
theorem claim8_no_validation (s : SimpleEventSequence α) (k : Int) (hk : k ≤ 0) :
    (s.increase_resolution k none).events = [] ∧
    (s.increase_resolution k none).start_step = s.start_step * k ∧
    (s.increase_resolution k none).end_step = s.end_step * k ∧
    (s.increase_resolution k none).steps_per_bar = s.steps_per_bar * k ∧
    (s.increase_resolution k none).steps_per_quarter =
      s.steps_per_quarter * k := by
  have hfill : ∀ l : List α, (l.map (fillOne k none)).flatten = [] := by
    intro l
    induction l with
    | nil => rfl
    | cons x xs ih =>
      simp [fillOne, Int.toNat_of_nonpos hk, ih]
  exact ⟨hfill s.events, rfl, rfl, rfl, rfl⟩

/-- Claim C8, witness at a concrete input. -/
theorem claim8_witness :
    ((fromEventList (0 : Nat) [1, 2] 3 4 5).increase_resolution (-2)
      none).events = [] :=
  (claim8_no_validation (fromEventList (0 : Nat) [1, 2] 3 4 5) (-2)
    (by decide)).1

/-- Claim C9: `append` on a `SimpleEventSequence` stores exactly the given
event at the end, leaves prior events and `start_step` unchanged, and bumps
`end_step` by 1; `append` of a valid run on a `RunLengthEncodedEventSequence`
succeeds, stores exactly the given run at the end without merging it into the
previous run, leaves `start_step` unchanged, and increases `end_step` by the
run's length. -/
theorem claim9_append_non_destructive (s : SimpleEventSequence α) (e : α)
    (r : RunLengthEncodedEventSequence α) (run : α × Nat)
    (h1 : 1 ≤ run.2) (h2 : run.2 ≤ r.max_run_length) :
    ((s.append e).events = s.events ++ [e] ∧
     (s.append e).end_step = s.end_step + 1 ∧
     (s.append e).start_step = s.start_step) ∧
    ∃ r', r.append run = Except.ok r' ∧
      r'.events = r.events ++ [run] ∧
      r'.end_step = r.end_step + run.2 ∧
      r'.start_step = r.start_step := by
  refine ⟨⟨rfl, rfl, rfl⟩,
    ⟨{ r with events := r.events ++ [run] }, ?_, rfl, ?_, rfl⟩⟩
  · rw [RunLengthEncodedEventSequence.append, if_neg (by omega),
      if_neg (by omega)]
  · show r.start_step + (((r.events ++ [run]).map Prod.snd).sum : Int) =
      (r.start_step + ((r.events.map Prod.snd).sum : Int)) + run.2
    rw [List.map_append, List.sum_append]
    push_cast
    simp
    ring

/-- Claim C9, witness at a concrete input. -/
theorem claim9_witness :
    ∃ r', (rleEncode (fromEventList (0 : Nat) [1] 0 4 4) 2).append (3, 2) =
        Except.ok r' ∧
      r'.events = (rleEncode (fromEventList (0 : Nat) [1] 0 4 4) 2).events
        ++ [(3, 2)] ∧
      r'.end_step = (rleEncode (fromEventList (0 : Nat) [1] 0 4 4) 2).end_step
        + 2 ∧
      r'.start_step =
        (rleEncode (fromEventList (0 : Nat) [1] 0 4 4) 2).start_step :=
  (claim9_append_non_destructive (fromEventList (0 : Nat) [1] 0 4 4) 1
    (rleEncode (fromEventList (0 : Nat) [1] 0 4 4) 2) (3, 2)
    (by decide) (by decide)).2

/-- Claim C10: for run lists with lengths in `[1, max_run_length]` and
`max_run_length ≥ 1`, standardization leaves the decoded underlying sequence
unchanged, and hence `num_steps`, `start_step` and `end_step` as well. -/
theorem claim10_standardize_preserves (r : RunLengthEncodedEventSequence α)
    (hm : 1 ≤ r.max_run_length)
    (hr : ∀ p ∈ r.events, 1 ≤ p.2 ∧ p.2 ≤ r.max_run_length) :
    expand r.standardize.events = expand r.events ∧
    r.standardize.num_steps = r.num_steps ∧
    r.standardize.start_step = r.start_step ∧
    r.standardize.end_step = r.end_step := by
  have hexp : expand r.standardize.events = expand r.events :=
    standardizeRuns_expand _ _
  have hnum : r.standardize.num_steps = r.num_steps := by
    have hlen := congrArg List.length hexp
    rw [expand_length, expand_length] at hlen
    exact hlen
  refine ⟨hexp, hnum, rfl, ?_⟩
  show r.standardize.start_step + (r.standardize.num_steps : Int) =
    r.start_step + (r.num_steps : Int)
  rw [hnum]
  rfl

/-- Claim C10, witness at a concrete input. -/
theorem claim10_witness :
    expand (rleEncode (fromEventList (0 : Nat) [1, 1, 1, 2] 0 16 4)
        2).standardize.events =
      expand (rleEncode (fromEventList (0 : Nat) [1, 1, 1, 2] 0 16 4) 2).events :=
  (claim10_standardize_preserves
    (rleEncode (fromEventList (0 : Nat) [1, 1, 1, 2] 0 16 4) 2)
    (by decide) (by decide)).1

end Magenta
